import Mathlib

/-!
Verification development for a terminal calculator engine.

The engine keeps a pending text buffer, a committed token sequence that
alternates numbers and operators, a `just_evaluated` flag and an optional
error message.  Commands mutate this state; evaluation reduces the token
sequence with multiplication and division applied before addition and
subtraction.

Modelling choices:
* The numeric type of the source is a 64-bit binary float.  Here numbers are
  exact rationals carried as an unreduced numerator/denominator pair `Q`
  (kernel-computable, unlike `ℚ` whose normalisation uses `Nat.gcd`).  All
  concrete computations appearing in the statements below are exact in the
  source numeric type as well, so no rounding behaviour is lost for them.
  `Qval` interprets `Q` in `ℚ`.
* The standard library decimal rendering of a float and the standard decimal
  parser are modelled by exact long-division rendering (`ratRender`) and an
  exact decimal parser (`parseNum`).  The parser omits exponent and
  infinity/nan forms, which cannot be produced through the key interface.
* The key dispatcher ignores every command except clear-all while an error is
  set; `step` models one dispatched command.
-/

namespace CalcSpec

/-- Unreduced exact rational: numerator over a natural denominator.  Every
value produced by the engine has a positive denominator. -/
structure Q where
  num : Int
  den : Nat
deriving DecidableEq

/-- Interpretation of `Q` as a rational number. -/
def Qval (q : Q) : ℚ := (q.num : ℚ) / (q.den : ℚ)

def Qadd (a b : Q) : Q := ⟨a.num * b.den + b.num * a.den, a.den * b.den⟩

def Qsub (a b : Q) : Q := ⟨a.num * b.den - b.num * a.den, a.den * b.den⟩

def Qmul (a b : Q) : Q := ⟨a.num * b.num, a.den * b.den⟩

def Qdiv (a b : Q) : Q :=
  ⟨if b.num < 0 then -(a.num * b.den) else a.num * b.den, a.den * b.num.natAbs⟩

def Qabs (q : Q) : Q := ⟨|q.num|, q.den⟩

/-- Strict order on `Q` by cross multiplication (valid for positive
denominators, which all engine values have). -/
def Qblt (a b : Q) : Bool := decide (a.num * (b.den : Int) < b.num * (a.den : Int))

/-- Machine epsilon of the numeric type: 2 to the power -52. -/
def epsilon : Q := ⟨1, 2 ^ 52⟩

/-- ASCII digit character for a value below ten. -/
def digitChar (d : Nat) : Char := Char.ofNat (48 + d)

def digitsToNat (l : List Char) : Nat :=
  l.foldl (fun n c => n * 10 + (c.toNat - 48)) 0

/-- Decimal parser, unsigned part: digits, optionally followed by a point and
further digits.  Mirrors the accepted forms `D+`, `D+.D*`, `.D+`. -/
def parseUnsigned (l : List Char) : Option Q :=
  match l.dropWhile Char.isDigit with
  | [] =>
    if l.takeWhile Char.isDigit = [] then none
    else some ⟨digitsToNat (l.takeWhile Char.isDigit), 1⟩
  | '.' :: fp =>
    if fp.all Char.isDigit = true ∧ ¬(l.takeWhile Char.isDigit = [] ∧ fp = []) then
      some ⟨digitsToNat (l.takeWhile Char.isDigit) * 10 ^ fp.length + digitsToNat fp,
            10 ^ fp.length⟩
    else none
  | _ => none

/-- Decimal parser with an optional leading sign. -/
def parseChars (l : List Char) : Option Q :=
  match l with
  | [] => none
  | c :: rest =>
    if c = '-' then (parseUnsigned rest).map (fun q => ⟨-q.num, q.den⟩)
    else if c = '+' then parseUnsigned rest
    else parseUnsigned l

/-- Model of the standard decimal parse of the pending text buffer. -/
def parseNum (s : String) : Option Q := parseChars s.data

/-- Fractional digits of `r / d` by long division, bounded by fuel. -/
def fracDigitsAux : Nat → Nat → Nat → List Char
  | 0, _, _ => []
  | fuel + 1, r, d => if r = 0 then [] else digitChar (r * 10 / d) :: fracDigitsAux fuel (r * 10 % d) d

/-- Rendering fuel: every 64-bit float has a terminating decimal expansion of
fewer than 1100 fractional digits. -/
def renderFuel : Nat := 1100

/-- Decimal digits of a natural number, most significant first. -/
def natDigitsAux : Nat → Nat → List Char
  | 0, _ => []
  | fuel + 1, n => if n < 10 then [digitChar n] else natDigitsAux fuel (n / 10) ++ [digitChar (n % 10)]

def natDigits (n : Nat) : List Char := natDigitsAux (n + 1) n

/-- Model of the standard decimal rendering of a float value: sign, integer
part, then the exact fractional expansion. -/
def ratRender (q : Q) : String :=
  let n := q.num.natAbs
  let frac := fracDigitsAux renderFuel (n % q.den) q.den
  ⟨(if q.num < 0 then ['-'] else []) ++ natDigits (n / q.den) ++
    (if frac = [] then [] else '.' :: frac)⟩

/-- Remove trailing zero characters. -/
def dropTrailingZeros (l : List Char) : List Char :=
  (l.reverse.dropWhile (· == '0')).reverse

/-- The post-processing of `format_number`: when the rendered text contains a
decimal point, strip trailing zero digits and then a trailing lone point;
an empty result falls back to "0". -/
def formatRendered (output : String) : String :=
  let out1 :=
    if output.data.any (· == '.') then
      let l := dropTrailingZeros output.data
      if l.getLast? = some '.' then (⟨l.dropLast⟩ : String) else (⟨l⟩ : String)
    else output
  if out1.data = [] then "0" else out1

/-- Source `format_number`: default decimal rendering followed by trailing
zero stripping. -/
def format_number (value : Q) : String := formatRendered (ratRender value)

inductive Operator where
  | add
  | subtract
  | multiply
  | divide
deriving DecidableEq

inductive Token where
  | number (text : String)
  | operator (op : Operator)
deriving DecidableEq

/-- Engine state of the calculator: the pending input buffer, the committed
token sequence, the post-evaluation flag and the optional error message. -/
structure App where
  input : String
  tokens : List Token
  just_evaluated : Bool
  error_message : Option String
deriving DecidableEq

/-- The default (initial) state. -/
def initApp : App := { input := "", tokens := [], just_evaluated := false, error_message := none }

def pushChar (s : String) (c : Char) : String := ⟨s.data ++ [c]⟩

def popChar (s : String) : String := ⟨s.data.dropLast⟩

def containsDot (s : String) : Bool := s.data.any (· == '.')

def all_clear (_a : App) : App :=
  { input := "", tokens := [], error_message := none, just_evaluated := false }

def handle_digit (a : App) (digit : Char) : App :=
  let a := if a.just_evaluated then { a with input := "", just_evaluated := false } else a
  let a := if a.input = "0" then { a with input := "" } else a
  { a with input := pushChar a.input digit }

def handle_decimal_point (a : App) : App :=
  let a := if a.just_evaluated then { a with input := "", just_evaluated := false } else a
  let a := if a.input = "" then { a with input := pushChar a.input '0' } else a
  if containsDot a.input then a else { a with input := pushChar a.input '.' }

def handle_backspace (a : App) : App :=
  if a.just_evaluated || a.input = "" then a else { a with input := popChar a.input }

def set_error (a : App) (message : String) : App :=
  { a with error_message := some ("Error " ++ message), input := "", tokens := [],
           just_evaluated := false }

/-- Commit the pending input into the token sequence.  Returns the new state
and whether the commit succeeded. -/
def try_commit_input (a : App) : App × Bool :=
  if a.input = "" then (a, true)
  else
    match parseNum a.input with
    | some _ =>
      ({ a with tokens := a.tokens ++ [Token.number a.input], input := "",
                just_evaluated := false }, true)
    | none => (set_error a "invalid number", false)

def set_operator (a : App) (operator : Operator) : App :=
  match try_commit_input a with
  | (a1, false) => a1
  | (a1, true) =>
    if a1.tokens = [] then a1
    else
      match a1.tokens.getLast? with
      | some (Token.operator _) =>
        { a1 with tokens := a1.tokens.dropLast ++ [Token.operator operator],
                  just_evaluated := false }
      | _ =>
        { a1 with tokens := a1.tokens ++ [Token.operator operator], just_evaluated := false }

def apply_operator (lhs rhs : Q) (operator : Operator) : Except String Q :=
  match operator with
  | Operator.add => Except.ok (Qadd lhs rhs)
  | Operator.subtract => Except.ok (Qsub lhs rhs)
  | Operator.multiply => Except.ok (Qmul lhs rhs)
  | Operator.divide =>
    if Qblt (Qabs rhs) epsilon then Except.error "Cannot divide by zero"
    else Except.ok (Qdiv lhs rhs)

/-- First phase of `evaluate_tokens`: walk the token list parsing numbers into
`values` and collecting `operators`, rejecting two adjacent tokens of the same
kind. -/
def collectTokens : List Token → Bool → Except String (List Q × List Operator)
  | [], _ => Except.ok ([], [])
  | Token.number text :: rest, expect_number =>
    if expect_number then
      match parseNum text with
      | none => Except.error "invalid number in expression"
      | some value =>
        match collectTokens rest false with
        | Except.ok (values, operators) => Except.ok (value :: values, operators)
        | Except.error e => Except.error e
    else Except.error "invalid expression"
  | Token.operator op :: rest, expect_number =>
    if expect_number then Except.error "incomplete expression"
    else
      match collectTokens rest true with
      | Except.ok (values, operators) => Except.ok (values, op :: operators)
      | Except.error e => Except.error e

/-- Whether an operator belongs to the high-precedence pass. -/
def isMulDiv : Operator → Bool
  | Operator.multiply => true
  | Operator.divide => true
  | _ => false

/-- High-precedence loop of `evaluate_tokens`: at index `idx`, a multiply or
divide collapses `values[idx]`, `values[idx+1]` into one value and removes the
operator, rescanning from the same index; otherwise the index advances.  The
fuel only bounds the iteration count; `ops.length + 1 - idx` iterations always
suffice.  The `getD` default is never read when
`values.length = ops.length + 1`, where the source would otherwise panic. -/
def pass1Aux : Nat → List Q → List Operator → Nat → Except String (List Q × List Operator)
  | 0, values, ops, _ => Except.ok (values, ops)
  | fuel + 1, values, ops, idx =>
    if h : idx < ops.length then
      if isMulDiv (ops.get ⟨idx, h⟩) then
        match apply_operator (values.getD idx ⟨0, 1⟩) (values.getD (idx + 1) ⟨0, 1⟩)
            (ops.get ⟨idx, h⟩) with
        | Except.error e => Except.error e
        | Except.ok result =>
          pass1Aux fuel ((values.set idx result).eraseIdx (idx + 1)) (ops.eraseIdx idx) idx
      else pass1Aux fuel values ops (idx + 1)
    else Except.ok (values, ops)

def pass1 (values : List Q) (ops : List Operator) : Except String (List Q × List Operator) :=
  pass1Aux (ops.length + 1) values ops 0

/-- Low-precedence pass of `evaluate_tokens`: fold the remaining operators
strictly left to right over the remaining values. -/
def pass2 (values : List Q) (ops : List Operator) : Except String Q :=
  (ops.zip (values.drop 1)).foldlM (fun result p => apply_operator result p.2 p.1)
    (values.getD 0 ⟨0, 1⟩)

/-- Source `evaluate_tokens`: parse and structure-check, then the two
precedence passes. -/
def evaluate_tokens (tokens : List Token) : Except String Q :=
  match collectTokens tokens true with
  | Except.error e => Except.error e
  | Except.ok (values, operators) =>
    if values = [] then Except.error "incomplete expression"
    else
      match pass1 values operators with
      | Except.error e => Except.error e
      | Except.ok (values, operators) => pass2 values operators

def evaluate (a : App) : App :=
  match try_commit_input a with
  | (a1, false) => a1
  | (a1, true) =>
    match a1.tokens.getLast? with
    | some (Token.operator _) => a1
    | _ =>
      if a1.tokens = [] then a1
      else
        match evaluate_tokens a1.tokens with
        | Except.ok result =>
          { a1 with input := format_number result, tokens := [], just_evaluated := true }
        | Except.error msg => set_error a1 msg

/-- One clean left-to-right scan replacing the index-shifting high-precedence
loop: a multiply or divide combines into the running value, anything else is
emitted into the reduced sequence. -/
def reduceScan (v : Q) : List (Operator × Q) → Except String (Q × List (Operator × Q))
  | [] => Except.ok (v, [])
  | (op, w) :: rest =>
    if isMulDiv op then
      match apply_operator v w op with
      | Except.error e => Except.error e
      | Except.ok r => reduceScan r rest
    else
      match reduceScan w rest with
      | Except.error e => Except.error e
      | Except.ok (w', rest') => Except.ok (v, (op, w') :: rest')

/-- Reference formulation of `evaluate_tokens` whose high-precedence pass is
the single left-to-right scan `reduceScan`. -/
def evaluateTokensScan (tokens : List Token) : Except String Q :=
  match collectTokens tokens true with
  | Except.error e => Except.error e
  | Except.ok ([], _) => Except.error "incomplete expression"
  | Except.ok (v :: vs, operators) =>
    match reduceScan v (operators.zip vs) with
    | Except.error e => Except.error e
    | Except.ok (v', reduced) => pass2 (v' :: reduced.map Prod.snd) (reduced.map Prod.fst)

/-- The public commands of the engine. -/
inductive Cmd where
  | digit (d : Fin 10)
  | dot
  | backspace
  | op (o : Operator)
  | eval
  | clear

/-- One dispatched command: while an error is set everything except clear-all
is ignored, mirroring the key dispatcher. -/
def step (a : App) (c : Cmd) : App :=
  if a.error_message.isSome then
    match c with
    | Cmd.clear => all_clear a
    | _ => a
  else
    match c with
    | Cmd.digit d => handle_digit a (digitChar d.val)
    | Cmd.dot => handle_decimal_point a
    | Cmd.backspace => handle_backspace a
    | Cmd.op o => set_operator a o
    | Cmd.eval => evaluate a
    | Cmd.clear => all_clear a

/-- States reachable from the initial state through the public commands. -/
inductive Reachable : App → Prop where
  | init : Reachable initApp
  | next : ∀ {a : App} (c : Cmd), Reachable a → Reachable (step a c)

/-- Alternation checker: given whether a number is expected next, consume the
token list and report the expectation after it, or `none` on a violation. -/
def altEnd : Bool → List Token → Option Bool
  | e, [] => some e
  | true, Token.number _ :: rest => altEnd false rest
  | false, Token.operator _ :: rest => altEnd true rest
  | _, _ => none

def endsWithOp (ts : List Token) : Bool :=
  match ts.getLast? with
  | some (Token.operator _) => true
  | _ => false

def headIsOp (ts : List Token) : Bool :=
  match ts with
  | Token.operator _ :: _ => true
  | _ => false

def consecOps : List Token → Bool
  | Token.operator _ :: Token.operator _ :: _ => true
  | _ :: rest => consecOps rest
  | [] => false

/-- Shape of any buffer producible by digit, decimal-point and backspace
entry: digits and at most one point, never starting with the point. -/
def goodEntry (l : List Char) : Prop :=
  (∀ c ∈ l, (c.isDigit || c == '.') = true) ∧
  (∀ c, l.head? = some c → c.isDigit = true) ∧
  l.countP (fun c => c == '.') ≤ 1

/-- Invariant maintained by every command. -/
def StateInv (a : App) : Prop :=
  altEnd true a.tokens = some true ∧
  (∀ s, Token.number s ∈ a.tokens → parseNum s ≠ none) ∧
  (if a.just_evaluated then a.input = "" ∨ parseNum a.input ≠ none
   else goodEntry a.input.data) ∧
  (a.error_message.isSome = true → a.input = "" ∧ a.tokens = [])

instance {α β : Type} [DecidableEq α] [DecidableEq β] : DecidableEq (Except α β)
  | Except.ok x, Except.ok y =>
    if h : x = y then isTrue (by rw [h]) else isFalse (fun hh => h (by injection hh))
  | Except.ok _, Except.error _ => isFalse (fun hh => by injection hh)
  | Except.error _, Except.ok _ => isFalse (fun hh => by injection hh)
  | Except.error x, Except.error y =>
    if h : x = y then isTrue (by rw [h]) else isFalse (fun hh => h (by injection hh))

/-- The token sequence of the expression 10 + 10 times 5 over 4 + 45. -/
def exampleTokens : List Token :=
  [Token.number "10", Token.operator Operator.add, Token.number "10",
   Token.operator Operator.multiply, Token.number "5", Token.operator Operator.divide,
   Token.number "4", Token.operator Operator.add, Token.number "45"]

section ListHelpers

variable {α : Type}

lemma getD_append_len (pre : List α) (v : α) (rest : List α) (d : α) :
    (pre ++ v :: rest).getD pre.length d = v := by
  induction pre with
  | nil => rfl
  | cons x xs ih => simpa using ih

lemma getD_append_len_succ (pre : List α) (v w : α) (rest : List α) (d : α) :
    (pre ++ v :: w :: rest).getD (pre.length + 1) d = w := by
  induction pre with
  | nil => rfl
  | cons x xs ih => simpa using ih

lemma set_append_len (pre : List α) (v r : α) (rest : List α) :
    (pre ++ v :: rest).set pre.length r = pre ++ r :: rest := by
  induction pre with
  | nil => rfl
  | cons x xs ih => simp [ih]

lemma eraseIdx_append_len (pre : List α) (v : α) (rest : List α) :
    (pre ++ v :: rest).eraseIdx pre.length = pre ++ rest := by
  induction pre with
  | nil => rfl
  | cons x xs ih => simpa using ih

lemma eraseIdx_append_len_succ (pre : List α) (v w : α) (rest : List α) :
    (pre ++ v :: w :: rest).eraseIdx (pre.length + 1) = pre ++ v :: rest := by
  induction pre with
  | nil => rfl
  | cons x xs ih => simpa using ih

lemma get_append_len (pre : List α) (v : α) (rest : List α)
    (h : pre.length < (pre ++ v :: rest).length) :
    (pre ++ v :: rest).get ⟨pre.length, h⟩ = v := by
  induction pre with
  | nil => rfl
  | cons x xs ih => exact ih (by simp)

lemma dropWhile_head_not (p : α → Bool) :
    ∀ (l : List α) (c : α) (r : List α), l.dropWhile p = c :: r → p c = false := by
  intro l
  induction l with
  | nil => intro c r h; simp [List.dropWhile] at h
  | cons x xs ih =>
    intro c r h
    rw [List.dropWhile_cons] at h
    by_cases hx : p x
    · rw [if_pos hx] at h; exact ih c r h
    · rw [if_neg hx] at h
      cases h
      simpa using hx

lemma takeWhile_append_all (p : α → Bool) (l : List α) (c₀ : α) (r : List α)
    (hl : ∀ c ∈ l, p c = true) (hc : p c₀ = false) :
    (l ++ c₀ :: r).takeWhile p = l ∧ (l ++ c₀ :: r).dropWhile p = c₀ :: r := by
  induction l with
  | nil => simp [List.takeWhile_cons, List.dropWhile_cons, hc]
  | cons x xs ih =>
    have hx : p x = true := hl x (by simp)
    have ihr := ih (fun c hcmem => hl c (by simp [hcmem]))
    simp [List.takeWhile_cons, List.dropWhile_cons, hx, ihr.1, ihr.2]

lemma dropWhile_append_all (p : α → Bool) (l r : List α) (hl : ∀ c ∈ l, p c = true) :
    (l ++ r).dropWhile p = r.dropWhile p := by
  induction l with
  | nil => rfl
  | cons x xs ih =>
    have hx : p x = true := hl x (by simp)
    simp [List.dropWhile_cons, hx, ih (fun c hcmem => hl c (by simp [hcmem]))]

end ListHelpers

lemma altEnd_append (l₁ l₂ : List Token) (b : Bool) :
    altEnd b (l₁ ++ l₂) = (altEnd b l₁).bind (fun e => altEnd e l₂) := by
  induction l₁ generalizing b with
  | nil => simp [altEnd]
  | cons t rest ih =>
    cases t with
    | number s =>
      cases b with
      | true => simpa [altEnd] using ih false
      | false => simp [altEnd]
    | operator o =>
      cases b with
      | true => simp [altEnd]
      | false => simpa [altEnd] using ih true

lemma altEnd_true_ends_op (ts : List Token) (h : altEnd true ts = some true) (hne : ts ≠ []) :
    ∃ ts' o, ts = ts' ++ [Token.operator o] := by
  have hsplit := List.dropLast_append_getLast hne
  cases hlast : ts.getLast hne with
  | number s =>
    exfalso
    rw [hlast] at hsplit
    rw [← hsplit, altEnd_append] at h
    cases he : altEnd true ts.dropLast with
    | none => rw [he] at h; simp at h
    | some e =>
      rw [he] at h
      cases e <;> simp [altEnd] at h
  | operator o =>
    rw [hlast] at hsplit
    exact ⟨ts.dropLast, o, hsplit.symm⟩

lemma headIsOp_of_alt (ts : List Token) (e : Bool) (h : altEnd true ts = some e) :
    headIsOp ts = false := by
  cases ts with
  | nil => rfl
  | cons t rest =>
    cases t with
    | number s => rfl
    | operator o => simp [altEnd] at h

lemma consecOps_of_alt : ∀ (ts : List Token) (b e : Bool), altEnd b ts = some e →
    consecOps ts = false := by
  intro ts
  induction ts with
  | nil => intro b e _; rfl
  | cons t rest ih =>
    intro b e h
    cases t with
    | number s =>
      cases b with
      | false => simp [altEnd] at h
      | true =>
        have hr : altEnd false rest = some e := by simpa [altEnd] using h
        simpa [consecOps] using ih false e hr
    | operator o =>
      cases b with
      | true => simp [altEnd] at h
      | false =>
        have hr : altEnd true rest = some e := by simpa [altEnd] using h
        cases rest with
        | nil => rfl
        | cons t2 r2 =>
          cases t2 with
          | number s2 => simpa [consecOps] using ih true e hr
          | operator o2 => simp [altEnd] at hr

lemma digit_ne_dash {c : Char} (h : c.isDigit = true) : ¬(c = '-') := by
  intro he
  subst he
  exact absurd h (by decide)

lemma digit_ne_plus {c : Char} (h : c.isDigit = true) : ¬(c = '+') := by
  intro he
  subst he
  exact absurd h (by decide)

lemma digit_ne_dot {c : Char} (h : c.isDigit = true) : ¬(c = '.') := by
  intro he
  subst he
  exact absurd h (by decide)

lemma digit_or_dot_resolve {c : Char} (h : (c.isDigit || c == '.') = true)
    (hd : c.isDigit = false) : c = '.' := by
  have h2 : c.isDigit = true ∨ c = '.' := by simpa using h
  rcases h2 with h1 | h1
  · rw [hd] at h1; cases h1
  · exact h1

lemma parseUnsigned_all_digits (l : List Char) (hne : l ≠ [])
    (hd : ∀ c ∈ l, c.isDigit = true) : parseUnsigned l ≠ none := by
  have hdw : l.dropWhile Char.isDigit = [] := by
    rw [List.dropWhile_eq_nil_iff]
    exact hd
  have htw : l.takeWhile Char.isDigit = l := by
    have hsplit := List.takeWhile_append_dropWhile (p := Char.isDigit) (l := l)
    rw [hdw, List.append_nil] at hsplit
    exact hsplit
  simp [parseUnsigned, hdw, htw, hne]

lemma parseUnsigned_digits_dot (ip fp : List Char) (hip : ip ≠ [])
    (hipd : ∀ c ∈ ip, c.isDigit = true) (hfpd : ∀ c ∈ fp, c.isDigit = true) :
    parseUnsigned (ip ++ '.' :: fp) ≠ none := by
  obtain ⟨htw, hdw⟩ := takeWhile_append_all Char.isDigit ip '.' fp hipd (by decide)
  simp [parseUnsigned, hdw, htw, hip, List.all_eq_true.mpr hfpd]

lemma parseChars_of_unsigned (sgn l : List Char) (hsgn : sgn = [] ∨ sgn = ['-'])
    (hl : l ≠ []) (hhead : ∀ c, l.head? = some c → c.isDigit = true)
    (hpu : parseUnsigned l ≠ none) : parseChars (sgn ++ l) ≠ none := by
  rcases hsgn with hs | hs
  · subst hs
    cases l with
    | nil => exact absurd rfl hl
    | cons c rest =>
      have hc : c.isDigit = true := hhead c rfl
      rw [List.nil_append, parseChars, if_neg (digit_ne_dash hc), if_neg (digit_ne_plus hc)]
      exact hpu
  · subst hs
    rw [List.singleton_append, parseChars, if_pos rfl]
    cases hp : parseUnsigned l with
    | none => exact absurd hp hpu
    | some q => simp [hp]

lemma goodEntry_parses (l : List Char) (hl : goodEntry l) (hne : l ≠ []) :
    parseChars l ≠ none := by
  obtain ⟨hall, hhead, hcount⟩ := hl
  cases l with
  | nil => exact absurd rfl hne
  | cons c rest =>
    have hc : c.isDigit = true := hhead c rfl
    rw [parseChars, if_neg (digit_ne_dash hc), if_neg (digit_ne_plus hc)]
    have hip : (c :: rest).takeWhile Char.isDigit ≠ [] := by
      simp [List.takeWhile_cons, hc]
    cases hdw : (c :: rest).dropWhile Char.isDigit with
    | nil => simp [parseUnsigned, hdw, hip]
    | cons d tail =>
      have hd : d.isDigit = false := dropWhile_head_not _ _ _ _ hdw
      have hdsub : List.Sublist ((c :: rest).dropWhile Char.isDigit) (c :: rest) :=
        List.dropWhile_sublist _
      have hdmem : d ∈ c :: rest := hdsub.subset (by rw [hdw]; exact List.mem_cons_self _ _)
      have hdot : d = '.' := digit_or_dot_resolve (hall d hdmem) hd
      subst hdot
      have htail : ∀ x ∈ tail, x.isDigit = true := by
        intro x hx
        by_contra hnd
        have hxd : x.isDigit = false := by
          cases hxb : x.isDigit
          · rfl
          · exact absurd hxb hnd
        have hxmem : x ∈ c :: rest := hdsub.subset (by rw [hdw]; exact List.mem_cons_of_mem _ hx)
        have hxdot : x = '.' := digit_or_dot_resolve (hall x hxmem) hxd
        subst hxdot
        have hsplit : c :: rest = (c :: rest).takeWhile Char.isDigit ++ '.' :: tail := by
          rw [← hdw, List.takeWhile_append_dropWhile]
        have htailpos : 0 < tail.countP (fun ch => ch == '.') :=
          List.countP_pos_iff.mpr ⟨'.', hx, by simp⟩
        have hceq : (c :: rest).countP (fun ch => ch == '.') =
            ((c :: rest).takeWhile Char.isDigit).countP (fun ch => ch == '.') +
              ('.' :: tail).countP (fun ch => ch == '.') := by
          conv_lhs => rw [hsplit]
          exact List.countP_append _ _ _
        simp [List.countP_cons] at hceq hcount
        omega
      simp [parseUnsigned, hdw, hip, List.all_eq_true.mpr htail]

lemma digitChar_isDigit {m : Nat} (h : m < 10) : (digitChar m).isDigit = true := by
  interval_cases m <;> decide

lemma digitChar_ne_zero {m : Nat} (h0 : 0 < m) (h : m < 10) : digitChar m ≠ '0' := by
  interval_cases m <;> decide

lemma natDigitsAux_digits : ∀ (fuel n : Nat), ∀ c ∈ natDigitsAux fuel n, c.isDigit = true := by
  intro fuel
  induction fuel with
  | zero => intro n c hc; simp [natDigitsAux] at hc
  | succ f ih =>
    intro n c hc
    rw [natDigitsAux] at hc
    by_cases hn : n < 10
    · rw [if_pos hn] at hc
      simp only [List.mem_singleton] at hc
      subst hc
      exact digitChar_isDigit hn
    · rw [if_neg hn] at hc
      rcases List.mem_append.mp hc with h1 | h1
      · exact ih _ c h1
      · simp only [List.mem_singleton] at h1
        subst h1
        exact digitChar_isDigit (Nat.mod_lt _ (by norm_num))

lemma natDigits_digits (n : Nat) : ∀ c ∈ natDigits n, c.isDigit = true :=
  natDigitsAux_digits _ _

lemma natDigits_ne_nil (n : Nat) : natDigits n ≠ [] := by
  rw [natDigits, natDigitsAux]
  by_cases hn : n < 10
  · rw [if_pos hn]; simp
  · rw [if_neg hn]; simp

lemma fracDigitsAux_digits : ∀ (fuel r d : Nat), (0 < d → r < d) →
    ∀ c ∈ fracDigitsAux fuel r d, c.isDigit = true := by
  intro fuel
  induction fuel with
  | zero => intro r d _ c hc; simp [fracDigitsAux] at hc
  | succ f ih =>
    intro r d hrd c hc
    rw [fracDigitsAux] at hc
    by_cases hr : r = 0
    · rw [if_pos hr] at hc; simp at hc
    · rw [if_neg hr] at hc
      rcases List.mem_cons.mp hc with h1 | h1
      · subst h1
        refine digitChar_isDigit ?_
        rcases Nat.eq_zero_or_pos d with hd | hd
        · subst hd; simp
        · rw [Nat.div_lt_iff_lt_mul hd]
          have := hrd hd
          omega
      · exact ih (r * 10 % d) d (fun hd => Nat.mod_lt _ hd) c h1

lemma fracDigitsAux_zero (fuel d : Nat) : fracDigitsAux fuel 0 d = [] := by
  cases fuel <;> simp [fracDigitsAux]

lemma dtz_append_zeros (l z : List Char) (hz : ∀ c ∈ z, (c == '0') = true) :
    dropTrailingZeros (l ++ z) = dropTrailingZeros l := by
  rw [dropTrailingZeros, dropTrailingZeros, List.reverse_append,
    dropWhile_append_all _ z.reverse l.reverse (fun c hc => hz c (List.mem_reverse.mp hc))]

lemma dtz_last_ne (l : List Char) (c : Char) (h : l.getLast? = some c)
    (hc : (c == '0') = false) : dropTrailingZeros l = l := by
  rw [dropTrailingZeros]
  have hr : l.reverse.head? = some c := by rw [List.head?_reverse]; exact h
  cases hlr : l.reverse with
  | nil => rw [hlr] at hr; cases hr
  | cons x xs =>
    rw [hlr] at hr
    injection hr with hx
    subst hx
    rw [List.dropWhile_cons]
    simp only [hc, Bool.false_eq_true, if_false]
    rw [← hlr, List.reverse_reverse]

lemma dtz_spec (l : List Char) :
    ∃ z, l = dropTrailingZeros l ++ z ∧ ∀ c ∈ z, (c == '0') = true := by
  refine ⟨(l.reverse.takeWhile (· == '0')).reverse, ?_, ?_⟩
  · rw [dropTrailingZeros]
    calc l = l.reverse.reverse := (List.reverse_reverse l).symm
    _ = (l.reverse.takeWhile (· == '0') ++ l.reverse.dropWhile (· == '0')).reverse := by
        rw [List.takeWhile_append_dropWhile]
    _ = (l.reverse.dropWhile (· == '0')).reverse ++ (l.reverse.takeWhile (· == '0')).reverse :=
        List.reverse_append _ _
  · intro c hc
    exact List.mem_takeWhile_imp (p := fun x => x == '0') (List.mem_reverse.mp hc)

lemma dtz_last (l : List Char) :
    dropTrailingZeros l = [] ∨
      ∃ c, (dropTrailingZeros l).getLast? = some c ∧ (c == '0') = false := by
  cases hr : l.reverse.dropWhile (· == '0') with
  | nil => left; rw [dropTrailingZeros, hr]; rfl
  | cons x xs =>
    right
    refine ⟨x, ?_, dropWhile_head_not (fun ch => ch == '0') l.reverse x xs hr⟩
    rw [dropTrailingZeros, hr, List.getLast?_reverse]
    rfl

lemma dtz_sublist (l : List Char) : List.Sublist (dropTrailingZeros l) l := by
  rw [dropTrailingZeros]
  have h1 : List.Sublist (l.reverse.dropWhile (· == '0')) l.reverse :=
    List.dropWhile_sublist _
  simpa using h1.reverse

lemma formatRendered_eq_self (out : String) (hnd : out.data.any (· == '.') = false)
    (hne : out.data ≠ []) : formatRendered out = out := by
  rw [formatRendered]
  simp [hnd, hne]

lemma formatRendered_split (X frac : List Char) (hX : X ≠ [])
    (_hXdot : ∀ c ∈ X, (c == '.') = false) (hfrac : ∀ c ∈ frac, c.isDigit = true)
    (_hfne : frac ≠ []) :
    (dropTrailingZeros frac = [] ∧ formatRendered ⟨X ++ '.' :: frac⟩ = ⟨X⟩) ∨
    (dropTrailingZeros frac ≠ [] ∧
      formatRendered ⟨X ++ '.' :: frac⟩ = ⟨X ++ '.' :: dropTrailingZeros frac⟩) := by
  have hdot : (X ++ '.' :: frac).any (· == '.') = true :=
    List.any_eq_true.mpr ⟨'.', by simp, by simp⟩
  obtain ⟨z, hzsplit, hz⟩ := dtz_spec frac
  rcases dtz_last frac with hempty | ⟨c, hlast, hc0⟩
  · left
    refine ⟨hempty, ?_⟩
    have hfz : ∀ c ∈ frac, (c == '0') = true := by
      intro c hc
      rw [hzsplit, hempty, List.nil_append] at hc
      exact hz c hc
    have hassoc : X ++ '.' :: frac = (X ++ ['.']) ++ frac := by simp
    have hstep : dropTrailingZeros (X ++ '.' :: frac) = X ++ ['.'] := by
      rw [hassoc, dtz_append_zeros _ _ hfz,
        dtz_last_ne (X ++ ['.']) '.' (List.getLast?_concat _) (by decide)]
    rw [formatRendered]
    simp only [hdot, if_true, hstep, List.getLast?_concat, if_pos rfl, List.dropLast_concat]
    simp [hX]
  · right
    have hne2 : dropTrailingZeros frac ≠ [] := by
      intro h
      rw [h] at hlast
      cases hlast
    refine ⟨hne2, ?_⟩
    have h1 : X ++ '.' :: frac = ((X ++ ['.']) ++ dropTrailingZeros frac) ++ z := by
      conv_lhs => rw [hzsplit]
      simp
    have hstep : dropTrailingZeros (X ++ '.' :: frac) =
        (X ++ ['.']) ++ dropTrailingZeros frac := by
      rw [h1, dtz_append_zeros _ _ hz,
        dtz_last_ne _ c (by rw [List.getLast?_append, hlast]; rfl) hc0]
    have hcmem : c ∈ frac := (dtz_sublist frac).subset (List.mem_of_getLast?_eq_some hlast)
    have hcd : c.isDigit = true := hfrac c hcmem
    have hcne : ¬((X ++ ['.']) ++ dropTrailingZeros frac).getLast? = some '.' := by
      rw [List.getLast?_append, hlast]
      intro h
      injection h with h2
      exact digit_ne_dot hcd h2
    rw [formatRendered]
    simp only [hdot, if_true, hstep, if_neg hcne]
    have hne3 : (X ++ ['.']) ++ dropTrailingZeros frac ≠ [] := by simp
    simp [hne3]

lemma fracDigitsAux_last : ∀ (fuel r d : Nat), 0 < d → r < d → r ≠ 0 →
    r * 10 ^ fuel % d = 0 →
    ∃ c, (fracDigitsAux fuel r d).getLast? = some c ∧ c.isDigit = true ∧ c ≠ '0' := by
  intro fuel
  induction fuel with
  | zero =>
    intro r d hd hr h0 hterm
    rw [pow_zero, mul_one, Nat.mod_eq_of_lt hr] at hterm
    exact absurd hterm h0
  | succ f ih =>
    intro r d hd hr h0 hterm
    rw [fracDigitsAux, if_neg h0]
    have hdigitlt : r * 10 / d < 10 := by
      rw [Nat.div_lt_iff_lt_mul hd]
      omega
    by_cases hz : r * 10 % d = 0
    · have hrest : fracDigitsAux f (r * 10 % d) d = [] := by
        rw [hz, fracDigitsAux_zero]
      rw [hrest]
      refine ⟨digitChar (r * 10 / d), rfl, digitChar_isDigit hdigitlt, ?_⟩
      have hge : d ≤ r * 10 := Nat.le_of_dvd (by omega) (Nat.dvd_of_mod_eq_zero hz)
      exact digitChar_ne_zero (Nat.div_pos hge hd) hdigitlt
    · have hterm2 : (r * 10 % d) * 10 ^ f % d = 0 := by
        rw [Nat.mod_mul_mod]
        have h1 : r * 10 * 10 ^ f = r * 10 ^ (f + 1) := by ring
        rw [h1, hterm]
      obtain ⟨c, hcl, hcd, hc0⟩ := ih (r * 10 % d) d hd (Nat.mod_lt _ hd) hz hterm2
      refine ⟨c, ?_, hcd, hc0⟩
      cases hrest : fracDigitsAux f (r * 10 % d) d with
      | nil => rw [hrest] at hcl; cases hcl
      | cons y ys =>
        rw [hrest] at hcl
        rw [List.getLast?_cons_cons]
        exact hcl

lemma ratRender_data (q : Q) :
    (ratRender q).data =
      (if q.num < 0 then ['-'] else []) ++ natDigits (q.num.natAbs / q.den) ++
        (if fracDigitsAux renderFuel (q.num.natAbs % q.den) q.den = [] then []
         else '.' :: fracDigitsAux renderFuel (q.num.natAbs % q.den) q.den) := rfl

lemma sign_cases (q : Q) :
    (if q.num < 0 then (['-'] : List Char) else []) = [] ∨
      (if q.num < 0 then (['-'] : List Char) else []) = ['-'] := by
  by_cases h : q.num < 0
  · right; rw [if_pos h]
  · left; rw [if_neg h]

lemma sign_ip_no_dot (q : Q) :
    ∀ c ∈ (if q.num < 0 then (['-'] : List Char) else []) ++
        natDigits (q.num.natAbs / q.den), (c == '.') = false := by
  intro c hc
  rcases List.mem_append.mp hc with h1 | h1
  · rcases sign_cases q with hs | hs <;> rw [hs] at h1
    · simp at h1
    · simp only [List.mem_singleton] at h1
      subst h1
      decide
  · have := natDigits_digits _ c h1
    simpa using digit_ne_dot this

lemma sign_ip_ne_nil (q : Q) :
    (if q.num < 0 then (['-'] : List Char) else []) ++
      natDigits (q.num.natAbs / q.den) ≠ [] := by
  intro h
  rcases List.append_eq_nil.mp h with ⟨_, h2⟩
  exact natDigits_ne_nil _ h2

lemma format_parses (q : Q) : parseNum (format_number q) ≠ none := by
  rw [format_number, parseNum]
  have hipne := natDigits_ne_nil (q.num.natAbs / q.den)
  have hipd := natDigits_digits (q.num.natAbs / q.den)
  have hfracd : ∀ c ∈ fracDigitsAux renderFuel (q.num.natAbs % q.den) q.den,
      c.isDigit = true :=
    fracDigitsAux_digits _ _ _ (fun hd => Nat.mod_lt _ hd)
  have hheadip : ∀ c, (natDigits (q.num.natAbs / q.den)).head? = some c →
      c.isDigit = true := by
    intro c hc
    exact hipd c (List.mem_of_mem_head? hc)
  by_cases hfe : fracDigitsAux renderFuel (q.num.natAbs % q.den) q.den = []
  · have hr : ratRender q =
        ⟨(if q.num < 0 then ['-'] else []) ++ natDigits (q.num.natAbs / q.den)⟩ := by
      apply String.ext
      rw [ratRender_data, hfe, if_pos rfl, List.append_nil]
    rw [hr, formatRendered_eq_self _ ?_ ?_]
    · exact parseChars_of_unsigned _ _ (sign_cases q) hipne hheadip
        (parseUnsigned_all_digits _ hipne hipd)
    · rw [List.any_eq_false]
      intro c hc
      simpa using sign_ip_no_dot q c hc
    · exact sign_ip_ne_nil q
  · have hr : ratRender q =
        ⟨((if q.num < 0 then ['-'] else []) ++ natDigits (q.num.natAbs / q.den)) ++
          '.' :: fracDigitsAux renderFuel (q.num.natAbs % q.den) q.den⟩ := by
      apply String.ext
      rw [ratRender_data, if_neg hfe, List.append_assoc]
    rw [hr]
    rcases formatRendered_split _ _ (sign_ip_ne_nil q) (sign_ip_no_dot q) hfracd hfe with
      ⟨_, heq⟩ | ⟨hnz, heq⟩
    · rw [heq]
      exact parseChars_of_unsigned _ _ (sign_cases q) hipne hheadip
        (parseUnsigned_all_digits _ hipne hipd)
    · rw [heq]
      have hassoc :
          ((if q.num < 0 then ['-'] else []) ++ natDigits (q.num.natAbs / q.den)) ++
            '.' :: dropTrailingZeros (fracDigitsAux renderFuel (q.num.natAbs % q.den) q.den) =
          (if q.num < 0 then ['-'] else []) ++ (natDigits (q.num.natAbs / q.den) ++
            '.' :: dropTrailingZeros (fracDigitsAux renderFuel (q.num.natAbs % q.den) q.den)) := by
        rw [List.append_assoc]
      have hdtzd : ∀ c ∈ dropTrailingZeros
          (fracDigitsAux renderFuel (q.num.natAbs % q.den) q.den), c.isDigit = true := by
        intro c hc
        exact hfracd c ((dtz_sublist _).subset hc)
      have hpu := parseUnsigned_digits_dot _ _ hipne hipd hdtzd
      have hhead2 : ∀ c, (natDigits (q.num.natAbs / q.den) ++
          '.' :: dropTrailingZeros
            (fracDigitsAux renderFuel (q.num.natAbs % q.den) q.den)).head? = some c →
          c.isDigit = true := by
        intro c hc
        cases hip : natDigits (q.num.natAbs / q.den) with
        | nil => exact absurd hip hipne
        | cons x xs =>
          rw [hip, List.cons_append, List.head?_cons] at hc
          injection hc with hx
          rw [← hx]
          exact hipd x (by rw [hip]; exact List.mem_cons_self _ _)
      show parseChars (((if q.num < 0 then ['-'] else []) ++ natDigits (q.num.natAbs / q.den)) ++
        '.' :: dropTrailingZeros (fracDigitsAux renderFuel (q.num.natAbs % q.den) q.den)) ≠ none
      rw [hassoc]
      exact parseChars_of_unsigned _ _ (sign_cases q) (by simp [hipne]) hhead2 hpu

lemma format_last_chars (q : Q) (hd : 0 < q.den) (hdvd : q.den ∣ 10 ^ renderFuel)
    (hdot : containsDot (ratRender q) = true) :
    (format_number q).data.getLast? ≠ some '0' ∧
      (format_number q).data.getLast? ≠ some '.' := by
  have hfracd : ∀ c ∈ fracDigitsAux renderFuel (q.num.natAbs % q.den) q.den,
      c.isDigit = true :=
    fracDigitsAux_digits _ _ _ (fun hdd => Nat.mod_lt _ hdd)
  by_cases hr0 : q.num.natAbs % q.den = 0
  · exfalso
    have hfe : fracDigitsAux renderFuel (q.num.natAbs % q.den) q.den = [] := by
      rw [hr0, fracDigitsAux_zero]
    rw [containsDot, ratRender_data, hfe, if_pos rfl, List.append_nil] at hdot
    rw [List.any_eq_true] at hdot
    obtain ⟨c, hc, hcdot⟩ := hdot
    have := sign_ip_no_dot q c hc
    rw [this] at hcdot
    cases hcdot
  · have hterm : (q.num.natAbs % q.den) * 10 ^ renderFuel % q.den = 0 := by
      have hdvd2 : q.den ∣ (q.num.natAbs % q.den) * 10 ^ renderFuel :=
        hdvd.mul_left _
      exact Nat.mod_eq_zero_of_dvd hdvd2
    obtain ⟨c, hcl, hcd, hc0⟩ :=
      fracDigitsAux_last renderFuel (q.num.natAbs % q.den) q.den hd
        (Nat.mod_lt _ hd) hr0 hterm
    have hfe : fracDigitsAux renderFuel (q.num.natAbs % q.den) q.den ≠ [] := by
      intro h
      rw [h] at hcl
      cases hcl
    have hdtz : dropTrailingZeros (fracDigitsAux renderFuel (q.num.natAbs % q.den) q.den) =
        fracDigitsAux renderFuel (q.num.natAbs % q.den) q.den :=
      dtz_last_ne _ c hcl (by simpa using hc0)
    have hr : ratRender q =
        ⟨((if q.num < 0 then ['-'] else []) ++ natDigits (q.num.natAbs / q.den)) ++
          '.' :: fracDigitsAux renderFuel (q.num.natAbs % q.den) q.den⟩ := by
      apply String.ext
      rw [ratRender_data, if_neg hfe, List.append_assoc]
    rcases formatRendered_split _ _ (sign_ip_ne_nil q) (sign_ip_no_dot q) hfracd hfe with
      ⟨hz, _⟩ | ⟨_, heq⟩
    · rw [hdtz] at hz
      exact absurd hz hfe
    · have hlast2 : (((if q.num < 0 then ['-'] else []) ++ natDigits (q.num.natAbs / q.den)) ++
          '.' :: fracDigitsAux renderFuel (q.num.natAbs % q.den) q.den).getLast? = some c := by
        cases hfc : fracDigitsAux renderFuel (q.num.natAbs % q.den) q.den with
        | nil => exact absurd hfc hfe
        | cons y ys =>
          rw [hfc] at hcl
          rw [List.getLast?_append, List.getLast?_cons_cons, hcl]
          rfl
      have hdata : (format_number q).data =
          ((if q.num < 0 then ['-'] else []) ++ natDigits (q.num.natAbs / q.den)) ++
            '.' :: fracDigitsAux renderFuel (q.num.natAbs % q.den) q.den := by
        rw [format_number, hr, heq, hdtz]
      constructor
      · rw [hdata, hlast2]
        intro h
        injection h with h2
        exact hc0 h2
      · rw [hdata, hlast2]
        intro h
        injection h with h2
        exact digit_ne_dot hcd h2

lemma collect_ok_alt : ∀ (ts : List Token) (b : Bool) (vs : List Q) (ops : List Operator),
    collectTokens ts b = Except.ok (vs, ops) →
    ∃ e, altEnd b ts = some e ∧
      vs.length + (if b then 0 else 1) = ops.length + (if e then 0 else 1) := by
  intro ts
  induction ts with
  | nil =>
    intro b vs ops h
    rw [collectTokens] at h
    injection h with h2
    injection h2 with h3 h4
    refine ⟨b, by simp [altEnd], ?_⟩
    rw [← h3, ← h4]
    rfl
  | cons t rest ih =>
    intro b vs ops h
    cases t with
    | number s =>
      cases b with
      | false => rw [collectTokens, if_neg (by simp)] at h; cases h
      | true =>
        rw [collectTokens, if_pos rfl] at h
        cases hp : parseNum s with
        | none => rw [hp] at h; cases h
        | some v =>
          rw [hp] at h
          cases hrec : collectTokens rest false with
          | error e' => rw [hrec] at h; cases h
          | ok p =>
            obtain ⟨vs', ops'⟩ := p
            rw [hrec] at h
            injection h with h2
            injection h2 with h3 h4
            obtain ⟨e, halt, hlen⟩ := ih false vs' ops' hrec
            refine ⟨e, by simpa [altEnd] using halt, ?_⟩
            rw [← h3, ← h4]
            simp only [List.length_cons]
            cases e <;> simp at hlen ⊢ <;> omega
    | operator op =>
      cases b with
      | true => rw [collectTokens, if_pos rfl] at h; cases h
      | false =>
        rw [collectTokens, if_neg (by simp)] at h
        cases hrec : collectTokens rest true with
        | error e' => rw [hrec] at h; cases h
        | ok p =>
          obtain ⟨vs', ops'⟩ := p
          rw [hrec] at h
          injection h with h2
          injection h2 with h3 h4
          obtain ⟨e, halt, hlen⟩ := ih true vs' ops' hrec
          refine ⟨e, by simpa [altEnd] using halt, ?_⟩
          rw [← h3, ← h4]
          simp only [List.length_cons]
          cases e <;> simp at hlen ⊢ <;> omega

lemma collect_ok_of_alt : ∀ (ts : List Token) (b e : Bool), altEnd b ts = some e →
    (∀ s, Token.number s ∈ ts → parseNum s ≠ none) →
    ∃ vs ops, collectTokens ts b = Except.ok (vs, ops) := by
  intro ts
  induction ts with
  | nil => intro b e _ _; exact ⟨[], [], rfl⟩
  | cons t rest ih =>
    intro b e halt hpar
    cases t with
    | number s =>
      cases b with
      | false => simp [altEnd] at halt
      | true =>
        have hs : parseNum s ≠ none := hpar s (List.mem_cons_self _ _)
        cases hp : parseNum s with
        | none => exact absurd hp hs
        | some v =>
          have halt2 : altEnd false rest = some e := by simpa [altEnd] using halt
          obtain ⟨vs, ops, hrec⟩ :=
            ih false e halt2 (fun s2 hs2 => hpar s2 (List.mem_cons_of_mem _ hs2))
          exact ⟨v :: vs, ops, by rw [collectTokens, if_pos rfl, hp, hrec]⟩
    | operator op =>
      cases b with
      | true => simp [altEnd] at halt
      | false =>
        have halt2 : altEnd true rest = some e := by simpa [altEnd] using halt
        obtain ⟨vs, ops, hrec⟩ :=
          ih true e halt2 (fun s2 hs2 => hpar s2 (List.mem_cons_of_mem _ hs2))
        exact ⟨vs, op :: ops, by rw [collectTokens, if_neg (by simp), hrec]⟩

lemma apply_operator_error (a b : Q) (op : Operator) (e : String)
    (h : apply_operator a b op = Except.error e) : e = "Cannot divide by zero" := by
  cases op <;> rw [apply_operator] at h
  · cases h
  · cases h
  · cases h
  · split at h
    · injection h with h2; exact h2.symm
    · cases h

lemma pass1Aux_error : ∀ (fuel : Nat) (values : List Q) (ops : List Operator) (idx : Nat)
    (e : String), pass1Aux fuel values ops idx = Except.error e →
    e = "Cannot divide by zero" := by
  intro fuel
  induction fuel with
  | zero => intro values ops idx e h; rw [pass1Aux] at h; cases h
  | succ f ih =>
    intro values ops idx e h
    rw [pass1Aux] at h
    by_cases hlt : idx < ops.length
    · rw [dif_pos hlt] at h
      cases hop : ops.get ⟨idx, hlt⟩ with
      | add => rw [hop] at h; exact ih _ _ _ _ h
      | subtract => rw [hop] at h; exact ih _ _ _ _ h
      | multiply =>
        rw [hop] at h
        cases happ : apply_operator (values.getD idx ⟨0, 1⟩) (values.getD (idx + 1) ⟨0, 1⟩)
            Operator.multiply with
        | error e' =>
          rw [happ] at h
          injection h with h2
          rw [← h2]
          exact apply_operator_error _ _ _ _ happ
        | ok r => rw [happ] at h; exact ih _ _ _ _ h
      | divide =>
        rw [hop] at h
        cases happ : apply_operator (values.getD idx ⟨0, 1⟩) (values.getD (idx + 1) ⟨0, 1⟩)
            Operator.divide with
        | error e' =>
          rw [happ] at h
          injection h with h2
          rw [← h2]
          exact apply_operator_error _ _ _ _ happ
        | ok r => rw [happ] at h; exact ih _ _ _ _ h
    · rw [dif_neg hlt] at h; cases h

lemma foldlM_apply_error : ∀ (l : List (Operator × Q)) (init : Q) (e : String),
    List.foldlM (fun result p => apply_operator result p.2 p.1) init l = Except.error e →
    e = "Cannot divide by zero" := by
  intro l
  induction l with
  | nil => intro init e h; simp [List.foldlM, pure, Except.pure] at h
  | cons p rest ih =>
    intro init e h
    rw [List.foldlM_cons] at h
    cases happ : apply_operator init p.2 p.1 with
    | error e' =>
      rw [happ] at h
      have h2 : e' = e := by
        simpa [Bind.bind, Except.bind] using h
      rw [← h2]
      exact apply_operator_error _ _ _ _ happ
    | ok r =>
      rw [happ] at h
      simp only [Bind.bind, Except.bind] at h
      exact ih r e h

lemma pass2_error (values : List Q) (ops : List Operator) (e : String)
    (h : pass2 values ops = Except.error e) : e = "Cannot divide by zero" :=
  foldlM_apply_error _ _ _ (by rw [pass2] at h; exact h)

lemma collect_error : ∀ (ts : List Token) (b : Bool) (e : String),
    collectTokens ts b = Except.error e →
    e = "invalid expression" ∨ e = "incomplete expression" ∨
      e = "invalid number in expression" := by
  intro ts
  induction ts with
  | nil => intro b e h; rw [collectTokens] at h; cases h
  | cons t rest ih =>
    intro b e h
    cases t with
    | number s =>
      cases b with
      | false =>
        rw [collectTokens, if_neg (by simp)] at h
        injection h with h2
        exact Or.inl h2.symm
      | true =>
        rw [collectTokens, if_pos rfl] at h
        cases hp : parseNum s with
        | none =>
          rw [hp] at h
          injection h with h2
          exact Or.inr (Or.inr h2.symm)
        | some v =>
          rw [hp] at h
          cases hrec : collectTokens rest false with
          | error e' =>
            rw [hrec] at h
            injection h with h2
            rw [← h2]
            exact ih false e' hrec
          | ok p => obtain ⟨vs, ops⟩ := p; rw [hrec] at h; cases h
    | operator op =>
      cases b with
      | true =>
        rw [collectTokens, if_pos rfl] at h
        injection h with h2
        exact Or.inr (Or.inl h2.symm)
      | false =>
        rw [collectTokens, if_neg (by simp)] at h
        cases hrec : collectTokens rest true with
        | error e' =>
          rw [hrec] at h
          injection h with h2
          rw [← h2]
          exact ih true e' hrec
        | ok p => obtain ⟨vs, ops⟩ := p; rw [hrec] at h; cases h

lemma evaluate_tokens_error_cases (ts : List Token) (e : String)
    (h : evaluate_tokens ts = Except.error e) :
    e = "invalid expression" ∨ e = "incomplete expression" ∨
      e = "invalid number in expression" ∨ e = "Cannot divide by zero" := by
  rw [evaluate_tokens] at h
  cases hcol : collectTokens ts true with
  | error e' =>
    rw [hcol] at h
    injection h with h2
    rw [← h2]
    rcases collect_error ts true e' hcol with h3 | h3 | h3
    · exact Or.inl h3
    · exact Or.inr (Or.inl h3)
    · exact Or.inr (Or.inr (Or.inl h3))
  | ok p =>
    obtain ⟨values, operators⟩ := p
    rw [hcol] at h
    replace h : (if values = [] then Except.error "incomplete expression"
        else match pass1 values operators with
          | Except.error e => Except.error e
          | Except.ok (values, operators) => pass2 values operators) = Except.error e := h
    by_cases hv : values = []
    · rw [if_pos hv] at h
      injection h with h2
      exact Or.inr (Or.inl h2.symm)
    · rw [if_neg hv] at h
      cases hp1 : pass1 values operators with
      | error e' =>
        rw [hp1] at h
        injection h with h2
        rw [← h2]
        exact Or.inr (Or.inr (Or.inr (pass1Aux_error _ _ _ _ _ hp1)))
      | ok p2 =>
        obtain ⟨values2, operators2⟩ := p2
        rw [hp1] at h
        exact Or.inr (Or.inr (Or.inr (pass2_error _ _ _ h)))

lemma get_append_eq {α : Type} (pre : List α) (v : α) (rest : List α) (n : Nat)
    (hn : n = pre.length) (h : n < (pre ++ v :: rest).length) :
    (pre ++ v :: rest).get ⟨n, h⟩ = v := by
  subst hn
  exact get_append_len pre v rest h

lemma eraseIdx_append_eq {α : Type} (pre : List α) (v : α) (rest : List α) (n : Nat)
    (hn : n = pre.length) : (pre ++ v :: rest).eraseIdx n = pre ++ rest := by
  subst hn
  exact eraseIdx_append_len pre v rest

lemma pass1Aux_low : ∀ (fuel : Nat) (values : List Q) (ops : List Operator) (idx : Nat),
    (∀ op ∈ ops, op = Operator.add ∨ op = Operator.subtract) →
    pass1Aux fuel values ops idx = Except.ok (values, ops) := by
  intro fuel
  induction fuel with
  | zero => intro values ops idx _; rw [pass1Aux]
  | succ f ih =>
    intro values ops idx hops
    rw [pass1Aux]
    by_cases hlt : idx < ops.length
    · rw [dif_pos hlt]
      have hmd : isMulDiv (ops.get ⟨idx, hlt⟩) = false := by
        rcases hops (ops.get ⟨idx, hlt⟩) (List.get_mem _ _ _) with ha | ha <;> rw [ha] <;> rfl
      rw [hmd]
      exact ih values ops (idx + 1) hops
    · rw [dif_neg hlt]

lemma pass1Aux_scan : ∀ (fuel : Nat) (ops : List Operator) (pre : List Q)
    (preOps : List Operator) (v : Q) (vs : List Q),
    preOps.length = pre.length → vs.length = ops.length → ops.length < fuel →
    pass1Aux fuel (pre ++ v :: vs) (preOps ++ ops) pre.length =
      match reduceScan v (ops.zip vs) with
      | Except.error e => Except.error e
      | Except.ok (v', reduced) =>
        Except.ok (pre ++ v' :: reduced.map Prod.snd, preOps ++ reduced.map Prod.fst) := by
  intro fuel
  induction fuel with
  | zero => intro ops pre preOps v vs _ _ hf; omega
  | succ f ih =>
    intro ops pre preOps v vs hpre hlen hf
    cases ops with
    | nil =>
      have hvs : vs = [] := List.length_eq_zero.mp (by simpa using hlen)
      subst hvs
      have hnlt : ¬ pre.length < (preOps ++ ([] : List Operator)).length := by
        simp [hpre]
      rw [pass1Aux, dif_neg hnlt]
      simp [reduceScan]
    | cons op ops' =>
      cases vs with
      | nil => simp at hlen
      | cons w vs' =>
        have hlen' : vs'.length = ops'.length := by simpa using hlen
        have hlt : pre.length < (preOps ++ op :: ops').length := by
          rw [List.length_append, List.length_cons]
          omega
        have hget : (preOps ++ op :: ops').get ⟨pre.length, hlt⟩ = op :=
          get_append_eq preOps op ops' pre.length hpre.symm hlt
        rw [pass1Aux, dif_pos hlt, hget, List.zip_cons_cons, reduceScan]
        by_cases hmd : isMulDiv op = true
        · rw [if_pos hmd, if_pos hmd, getD_append_len, getD_append_len_succ]
          cases happ : apply_operator v w op with
          | error e => rfl
          | ok r =>
            show pass1Aux f (((pre ++ v :: w :: vs').set pre.length r).eraseIdx (pre.length + 1))
                ((preOps ++ op :: ops').eraseIdx pre.length) pre.length = _
            rw [set_append_len, eraseIdx_append_len_succ,
              eraseIdx_append_eq preOps op ops' pre.length hpre.symm,
              ih ops' pre preOps r vs' hpre hlen' (by simp at hf; omega)]
        · rw [if_neg hmd, if_neg hmd]
          have e1 : pre ++ v :: w :: vs' = (pre ++ [v]) ++ w :: vs' := by simp
          have e2 : preOps ++ op :: ops' = (preOps ++ [op]) ++ ops' := by simp
          have e3 : pre.length + 1 = (pre ++ [v]).length := by simp
          rw [e1, e2, e3,
            ih ops' (pre ++ [v]) (preOps ++ [op]) w vs' (by simp [hpre]) hlen'
              (by simp at hf; omega)]
          cases hscan : reduceScan w (ops'.zip vs') with
          | error e => rfl
          | ok p =>
            obtain ⟨w', red⟩ := p
            simp

lemma pass1_scan (v : Q) (vs : List Q) (ops : List Operator) (h : vs.length = ops.length) :
    pass1 (v :: vs) ops =
      match reduceScan v (ops.zip vs) with
      | Except.error e => Except.error e
      | Except.ok (v', reduced) =>
        Except.ok (v' :: reduced.map Prod.snd, reduced.map Prod.fst) := by
  have hmain := pass1Aux_scan (ops.length + 1) ops [] [] v vs rfl h (by omega)
  rw [pass1]
  simp only [List.nil_append, List.length_nil] at hmain
  rw [hmain]

lemma evaluate_tokens_eq_scan (ts : List Token) (hend : altEnd true ts = some false) :
    evaluate_tokens ts = evaluateTokensScan ts := by
  rw [evaluate_tokens, evaluateTokensScan]
  cases hcol : collectTokens ts true with
  | error e => rfl
  | ok p =>
    obtain ⟨vs, ops⟩ := p
    obtain ⟨e, halt, hlenq⟩ := collect_ok_alt ts true vs ops hcol
    have he : e = false := by
      rw [hend] at halt
      injection halt with h2
      exact h2.symm
    subst he
    simp only [if_true, if_false] at hlenq
    cases vs with
    | nil => simp at hlenq
    | cons v vs' =>
      have hlen2 : vs'.length = ops.length := by
        simp at hlenq
        omega
      show (if v :: vs' = [] then Except.error "incomplete expression"
          else match pass1 (v :: vs') ops with
            | Except.error e => Except.error e
            | Except.ok (values, operators) => pass2 values operators) =
        (match reduceScan v (ops.zip vs') with
          | Except.error e => Except.error e
          | Except.ok (v', reduced) =>
            pass2 (v' :: reduced.map Prod.snd) (reduced.map Prod.fst))
      rw [if_neg (by simp : ¬(v :: vs' = [])), pass1_scan v vs' ops hlen2]
      cases hscan : reduceScan v (ops.zip vs') with
      | error e2 => rfl
      | ok p2 =>
        obtain ⟨v', red⟩ := p2
        rfl

lemma goodEntry_nil : goodEntry [] := ⟨by simp, by simp, by simp⟩

lemma goodEntry_push_digit (l : List Char) (h : goodEntry l) (c : Char)
    (hc : c.isDigit = true) : goodEntry (l ++ [c]) := by
  obtain ⟨hall, hhead, hcount⟩ := h
  have hcd : (c == '.') = false := by
    simpa using digit_ne_dot hc
  refine ⟨?_, ?_, ?_⟩
  · intro x hx
    rcases List.mem_append.mp hx with h1 | h1
    · exact hall x h1
    · simp only [List.mem_singleton] at h1
      subst h1
      simp [hc]
  · intro x hx
    cases l with
    | nil =>
      simp only [List.nil_append, List.head?_cons] at hx
      injection hx with h2
      rw [← h2]
      exact hc
    | cons y ys => exact hhead x hx
  · rw [List.countP_append]
    have h1 : List.countP (fun ch => ch == '.') [c] = 0 := by
      simp [List.countP_cons, hcd]
    omega

lemma goodEntry_push_dot (l : List Char) (h : goodEntry l) (hne : l ≠ [])
    (hnd : l.countP (fun ch => ch == '.') = 0) : goodEntry (l ++ ['.']) := by
  obtain ⟨hall, hhead, _⟩ := h
  refine ⟨?_, ?_, ?_⟩
  · intro x hx
    rcases List.mem_append.mp hx with h1 | h1
    · exact hall x h1
    · simp only [List.mem_singleton] at h1
      subst h1
      decide
  · intro x hx
    cases l with
    | nil => exact absurd rfl hne
    | cons y ys => exact hhead x hx
  · rw [List.countP_append, hnd]
    simp [List.countP_cons]

lemma goodEntry_dropLast (l : List Char) (h : goodEntry l) : goodEntry l.dropLast := by
  obtain ⟨hall, hhead, hcount⟩ := h
  refine ⟨?_, ?_, ?_⟩
  · intro x hx
    exact hall x ((List.dropLast_sublist l).subset hx)
  · intro x hx
    cases l with
    | nil => simp at hx
    | cons y ys =>
      cases ys with
      | nil => simp at hx
      | cons z zs => exact hhead x hx
  · exact le_trans ((List.dropLast_sublist l).countP_le _) hcount

lemma containsDot_countP (s : String) (h : containsDot s = false) :
    s.data.countP (fun ch => ch == '.') = 0 := by
  rw [containsDot] at h
  rw [List.countP_eq_zero]
  intro x hx
  exact (List.any_eq_false.mp h) x hx

lemma str_data_ne_nil {s : String} (h : s ≠ "") : s.data ≠ [] := by
  intro hd
  exact h (String.ext (hd.trans (by decide)))

lemma inv_input_parses (a : App) (hinv : StateInv a) :
    a.input = "" ∨ parseNum a.input ≠ none := by
  obtain ⟨_, _, hin, _⟩ := hinv
  cases hje : a.just_evaluated with
  | true =>
    rw [hje] at hin
    simpa using hin
  | false =>
    rw [hje] at hin
    simp only [Bool.false_eq_true, if_false] at hin
    by_cases hi : a.input = ""
    · exact Or.inl hi
    · exact Or.inr (goodEntry_parses _ hin (str_data_ne_nil hi))

lemma try_commit_spec (a : App) (h : a.input = "" ∨ parseNum a.input ≠ none) :
    (a.input = "" ∧ try_commit_input a = (a, true)) ∨
    (a.input ≠ "" ∧ parseNum a.input ≠ none ∧
      try_commit_input a =
        ({ a with tokens := a.tokens ++ [Token.number a.input], input := "",
                  just_evaluated := false }, true)) := by
  by_cases hi : a.input = ""
  · exact Or.inl ⟨hi, by rw [try_commit_input, if_pos hi]⟩
  · right
    have hp : parseNum a.input ≠ none := h.resolve_left hi
    refine ⟨hi, hp, ?_⟩
    cases hq : parseNum a.input with
    | none => exact absurd hq hp
    | some v => rw [try_commit_input, if_neg hi, hq]

lemma altEnd_append_number (ts : List Token) (s : String)
    (h : altEnd true ts = some true) :
    altEnd true (ts ++ [Token.number s]) = some false := by
  rw [altEnd_append, h]
  rfl

lemma altEnd_append_op_after_number (ts : List Token) (o : Operator)
    (h : altEnd true ts = some false) :
    altEnd true (ts ++ [Token.operator o]) = some true := by
  rw [altEnd_append, h]
  rfl

lemma altEnd_replace_last (ts : List Token) (o0 o : Operator)
    (h : altEnd true (ts ++ [Token.operator o0]) = some true) :
    altEnd true (ts ++ [Token.operator o]) = some true := by
  rw [altEnd_append] at h ⊢
  cases he : altEnd true ts with
  | none => rw [he] at h; exact Option.noConfusion h
  | some e =>
    rw [he] at h
    cases e with
    | false => rfl
    | true => exact Option.noConfusion h

lemma set_operator_commit (a a1 : App) (o : Operator)
    (hcommit : try_commit_input a = (a1, true)) :
    set_operator a o =
      (if a1.tokens = [] then a1
       else
         match a1.tokens.getLast? with
         | some (Token.operator _) =>
           { a1 with tokens := a1.tokens.dropLast ++ [Token.operator o],
                     just_evaluated := false }
         | _ =>
           { a1 with tokens := a1.tokens ++ [Token.operator o], just_evaluated := false }) := by
  rw [set_operator, hcommit]

lemma evaluate_commit (a a1 : App) (hcommit : try_commit_input a = (a1, true)) :
    evaluate a =
      (match a1.tokens.getLast? with
       | some (Token.operator _) => a1
       | _ =>
         if a1.tokens = [] then a1
         else
           match evaluate_tokens a1.tokens with
           | Except.ok result =>
             { a1 with input := format_number result, tokens := [], just_evaluated := true }
           | Except.error msg => set_error a1 msg) := by
  rw [evaluate, hcommit]

lemma inv_all_clear (a : App) : StateInv (all_clear a) := by
  refine ⟨rfl, ?_, ?_, ?_⟩
  · intro s hs
    simp [all_clear] at hs
  · exact goodEntry_nil
  · intro h
    simp [all_clear] at h

lemma inv_set_error (a : App) (msg : String) : StateInv (set_error a msg) := by
  refine ⟨rfl, ?_, ?_, ?_⟩
  · intro s hs
    simp [set_error] at hs
  · exact goodEntry_nil
  · intro _
    exact ⟨rfl, rfl⟩

lemma goodEntry_single_digit (c : Char) (hc : c.isDigit = true) : goodEntry [c] :=
  goodEntry_push_digit [] goodEntry_nil c hc

lemma inv_handle_digit (a : App) (hinv : StateInv a) (herr : a.error_message = none)
    (c : Char) (hc : c.isDigit = true) : StateInv (handle_digit a c) := by
  obtain ⟨halt, hpar, hin, _⟩ := hinv
  cases hje : a.just_evaluated with
  | true =>
    have hstate : handle_digit a c = { a with input := ⟨[c]⟩, just_evaluated := false } := by
      simp [handle_digit, hje, pushChar]
    rw [hstate]
    exact ⟨halt, hpar, goodEntry_single_digit c hc, by simp [herr]⟩
  | false =>
    rw [hje] at hin
    simp only [Bool.false_eq_true, if_false] at hin
    by_cases hi0 : a.input = "0"
    · have hstate : handle_digit a c = { a with input := ⟨[c]⟩ } := by
        simp [handle_digit, hje, hi0, pushChar]
      rw [hstate]
      refine ⟨halt, hpar, ?_, by simp [herr]⟩
      simp only [hje, Bool.false_eq_true, if_false]
      exact goodEntry_single_digit c hc
    · have hstate : handle_digit a c = { a with input := pushChar a.input c } := by
        simp [handle_digit, hje, hi0]
      rw [hstate]
      refine ⟨halt, hpar, ?_, by simp [herr]⟩
      simp only [hje, Bool.false_eq_true, if_false]
      exact goodEntry_push_digit a.input.data hin c hc

lemma goodEntry_zero_dot : goodEntry ['0', '.'] := by
  refine ⟨?_, ?_, ?_⟩ <;> simp [List.countP_cons]

lemma inv_handle_decimal_point (a : App) (hinv : StateInv a)
    (herr : a.error_message = none) : StateInv (handle_decimal_point a) := by
  obtain ⟨halt, hpar, hin, _⟩ := hinv
  cases hje : a.just_evaluated with
  | true =>
    have hstate : handle_decimal_point a =
        { a with input := ⟨['0', '.']⟩, just_evaluated := false } := by
      simp [handle_decimal_point, hje, pushChar, containsDot]
    rw [hstate]
    exact ⟨halt, hpar, goodEntry_zero_dot, by simp [herr]⟩
  | false =>
    rw [hje] at hin
    simp only [Bool.false_eq_true, if_false] at hin
    by_cases hi : a.input = ""
    · have hstate : handle_decimal_point a = { a with input := ⟨['0', '.']⟩ } := by
        simp [handle_decimal_point, hje, hi, pushChar, containsDot]
      rw [hstate]
      refine ⟨halt, hpar, ?_, by simp [herr]⟩
      simp only [hje, Bool.false_eq_true, if_false]
      exact goodEntry_zero_dot
    · by_cases hdot : containsDot a.input = true
      · have hstate : handle_decimal_point a = a := by
          simp [handle_decimal_point, hje, hi, hdot]
        rw [hstate]
        exact ⟨halt, hpar, by simp [hje]; exact hin, by simp [herr]⟩
      · have hdot2 : containsDot a.input = false := by
          cases h2 : containsDot a.input
          · rfl
          · exact absurd h2 hdot
        have hstate : handle_decimal_point a = { a with input := pushChar a.input '.' } := by
          simp [handle_decimal_point, hje, hi, hdot2]
        rw [hstate]
        refine ⟨halt, hpar, ?_, by simp [herr]⟩
        simp only [hje, Bool.false_eq_true, if_false]
        exact goodEntry_push_dot a.input.data hin (str_data_ne_nil hi)
          (containsDot_countP a.input hdot2)

lemma inv_handle_backspace (a : App) (hinv : StateInv a)
    (herr : a.error_message = none) : StateInv (handle_backspace a) := by
  obtain ⟨halt, hpar, hin, herrc⟩ := hinv
  by_cases hstop : a.just_evaluated = true ∨ a.input = ""
  · have hstate : handle_backspace a = a := by
      rw [handle_backspace, if_pos]
      rcases hstop with h | h <;> simp [h]
    rw [hstate]
    exact ⟨halt, hpar, hin, herrc⟩
  · push_neg at hstop
    obtain ⟨hje, hi⟩ := hstop
    have hje2 : a.just_evaluated = false := by
      cases h2 : a.just_evaluated
      · rfl
      · exact absurd h2 hje
    rw [hje2] at hin
    simp only [Bool.false_eq_true, if_false] at hin
    have hstate : handle_backspace a = { a with input := popChar a.input } := by
      rw [handle_backspace, if_neg]
      simp [hje2, hi]
    rw [hstate]
    refine ⟨halt, hpar, ?_, by simp [herr]⟩
    simp only [hje2, Bool.false_eq_true, if_false]
    exact goodEntry_dropLast a.input.data hin

lemma stateInv_input_of_false {b : Bool} (hb : b = false) {s : String}
    (hg : goodEntry s.data) :
    if b = true then s = "" ∨ parseNum s ≠ none else goodEntry s.data := by
  rw [hb]
  simp only [Bool.false_eq_true, if_false]
  exact hg

lemma stateInv_input_of_true {b : Bool} (hb : b = true) {s : String}
    (hp : parseNum s ≠ none) :
    if b = true then s = "" ∨ parseNum s ≠ none else goodEntry s.data := by
  rw [hb]
  simp only [if_true]
  exact Or.inr hp

lemma stateInv_err_of_none {o : Option String} (ho : o = none) {P : Prop} :
    o.isSome = true → P := by
  intro h
  rw [ho] at h
  cases h

lemma set_operator_nil (a a1 : App) (o : Operator)
    (hcommit : try_commit_input a = (a1, true)) (ht : a1.tokens = []) :
    set_operator a o = a1 := by
  rw [set_operator, hcommit]
  show (if a1.tokens = [] then a1 else _) = a1
  rw [if_pos ht]

lemma set_operator_replace (a a1 : App) (o : Operator) (ts : List Token) (o0 : Operator)
    (hcommit : try_commit_input a = (a1, true))
    (hts : a1.tokens = ts ++ [Token.operator o0]) :
    set_operator a o =
      { a1 with tokens := ts ++ [Token.operator o], just_evaluated := false } := by
  rw [set_operator, hcommit]
  have hne : a1.tokens ≠ [] := by rw [hts]; simp
  have hlast : a1.tokens.getLast? = some (Token.operator o0) := by
    rw [hts]
    exact List.getLast?_concat _
  show (if a1.tokens = [] then a1
    else
      match a1.tokens.getLast? with
      | some (Token.operator _) =>
        { a1 with tokens := a1.tokens.dropLast ++ [Token.operator o],
                  just_evaluated := false }
      | _ => { a1 with tokens := a1.tokens ++ [Token.operator o],
                       just_evaluated := false }) = _
  rw [if_neg hne, hlast, hts, List.dropLast_concat]

lemma set_operator_append (a a1 : App) (o : Operator) (s : String)
    (hcommit : try_commit_input a = (a1, true)) (hne : a1.tokens ≠ [])
    (hlast : a1.tokens.getLast? = some (Token.number s)) :
    set_operator a o =
      { a1 with tokens := a1.tokens ++ [Token.operator o], just_evaluated := false } := by
  rw [set_operator, hcommit]
  show (if a1.tokens = [] then a1
    else
      match a1.tokens.getLast? with
      | some (Token.operator _) =>
        { a1 with tokens := a1.tokens.dropLast ++ [Token.operator o],
                  just_evaluated := false }
      | _ => { a1 with tokens := a1.tokens ++ [Token.operator o],
                       just_evaluated := false }) = _
  rw [if_neg hne, hlast]

lemma inv_set_operator (a : App) (hinv : StateInv a) (herr : a.error_message = none)
    (o : Operator) : StateInv (set_operator a o) := by
  have hinv2 := hinv
  obtain ⟨halt, hpar, _, _⟩ := hinv2
  rcases try_commit_spec a (inv_input_parses a hinv) with ⟨hi, hcommit⟩ | ⟨hi, hp, hcommit⟩
  · by_cases ht : a.tokens = []
    · rw [set_operator_nil a a o hcommit ht]
      exact hinv
    · obtain ⟨ts', o0, hts⟩ := altEnd_true_ends_op a.tokens halt ht
      rw [set_operator_replace a a o ts' o0 hcommit hts]
      refine ⟨?_, ?_, ?_, stateInv_err_of_none herr⟩
      · exact altEnd_replace_last ts' o0 o (by rw [← hts]; exact halt)
      · intro s hs
        rcases List.mem_append.mp hs with h1 | h1
        · refine hpar s ?_
          rw [hts]
          exact List.mem_append.mpr (Or.inl h1)
        · simp at h1
      · exact stateInv_input_of_false rfl (by rw [hi]; exact goodEntry_nil)
  · have hcommit2 : try_commit_input a =
        ({ a with tokens := a.tokens ++ [Token.number a.input], input := "",
                  just_evaluated := false }, true) := hcommit
    have hne : (a.tokens ++ [Token.number a.input]) ≠ [] := by simp
    rw [set_operator_append a _ o a.input hcommit2 hne (List.getLast?_concat _)]
    refine ⟨?_, ?_, ?_, stateInv_err_of_none herr⟩
    · exact altEnd_append_op_after_number _ o (altEnd_append_number _ _ halt)
    · intro s hs
      rcases List.mem_append.mp hs with h1 | h1
      · rcases List.mem_append.mp h1 with h2 | h2
        · exact hpar s h2
        · simp only [List.mem_singleton] at h2
          injection h2 with h3
          rw [h3]
          exact hp
      · simp at h1
    · exact stateInv_input_of_false rfl goodEntry_nil

lemma evaluate_core_inv (a1 : App) (hinv1 : a1.tokens = [] → StateInv a1)
    (herr1 : a1.error_message = none) :
    StateInv (if a1.tokens = [] then a1
      else
        match evaluate_tokens a1.tokens with
        | Except.ok result =>
          { a1 with input := format_number result, tokens := [], just_evaluated := true }
        | Except.error msg => set_error a1 msg) := by
  by_cases ht : a1.tokens = []
  · rw [if_pos ht]
    exact hinv1 ht
  · rw [if_neg ht]
    cases heval : evaluate_tokens a1.tokens with
    | ok r =>
      refine ⟨rfl, ?_, ?_, stateInv_err_of_none herr1⟩
      · intro s hs
        simp at hs
      · exact stateInv_input_of_true rfl (format_parses r)
    | error msg => exact inv_set_error a1 msg

lemma inv_evaluate (a : App) (hinv : StateInv a) (herr : a.error_message = none) :
    StateInv (evaluate a) := by
  have hinv2 := hinv
  obtain ⟨halt, hpar, _, _⟩ := hinv2
  rcases try_commit_spec a (inv_input_parses a hinv) with ⟨hi, hcommit⟩ | ⟨hi, hp, hcommit⟩
  · rw [evaluate_commit a a hcommit]
    cases hlastc : a.tokens.getLast? with
    | none => exact evaluate_core_inv a (fun _ => hinv) herr
    | some t =>
      cases t with
      | operator o0 => exact hinv
      | number s => exact evaluate_core_inv a (fun _ => hinv) herr
  · rw [evaluate_commit a _ hcommit]
    have hlast : ({ a with tokens := a.tokens ++ [Token.number a.input], input := "",
                           just_evaluated := false } : App).tokens.getLast? =
        some (Token.number a.input) := List.getLast?_concat _
    rw [hlast]
    exact evaluate_core_inv _ (fun ht => absurd ht (by simp)) herr


lemma inv_init : StateInv initApp := by
  refine ⟨rfl, ?_, ?_, ?_⟩
  · intro s hs
    simp [initApp] at hs
  · exact goodEntry_nil
  · intro h
    simp [initApp] at h

lemma step_reduce (a : App) (c : Cmd) :
    step a c =
      if a.error_message.isSome = true then
        (match c with
         | Cmd.clear => all_clear a
         | _ => a)
      else
        (match c with
         | Cmd.digit d => handle_digit a (digitChar d.val)
         | Cmd.dot => handle_decimal_point a
         | Cmd.backspace => handle_backspace a
         | Cmd.op o => set_operator a o
         | Cmd.eval => evaluate a
         | Cmd.clear => all_clear a) := rfl

lemma inv_step (a : App) (c : Cmd) (hinv : StateInv a) : StateInv (step a c) := by
  rw [step_reduce]
  by_cases herr : a.error_message.isSome = true
  · rw [if_pos herr]
    cases c with
    | clear => exact inv_all_clear a
    | digit d => exact hinv
    | dot => exact hinv
    | backspace => exact hinv
    | op o => exact hinv
    | eval => exact hinv
  · rw [if_neg herr]
    have herr2 : a.error_message = none := Option.not_isSome_iff_eq_none.mp herr
    cases c with
    | digit d => exact inv_handle_digit a hinv herr2 _ (digitChar_isDigit d.isLt)
    | dot => exact inv_handle_decimal_point a hinv herr2
    | backspace => exact inv_handle_backspace a hinv herr2
    | op o => exact inv_set_operator a hinv herr2 o
    | eval => exact inv_evaluate a hinv herr2
    | clear => exact inv_all_clear a

lemma reachable_inv (a : App) (h : Reachable a) : StateInv a := by
  induction h with
  | init => exact inv_init
  | next c _ ih => exact inv_step _ c ih

lemma Qblt_abs_eps (rhs : Q) (hden : 0 < rhs.den) :
    Qblt (Qabs rhs) epsilon = true ↔ |Qval rhs| < 1 / 2 ^ 52 := by
  rw [Qblt, decide_eq_true_iff]
  show |rhs.num| * ((2 ^ 52 : Nat) : Int) < 1 * (rhs.den : Int) ↔ _
  rw [Qval, abs_div]
  have hdQ : (0 : ℚ) < (rhs.den : ℚ) := by exact_mod_cast hden
  rw [abs_of_pos hdQ, div_lt_div_iff₀ hdQ (by positivity : (0 : ℚ) < 2 ^ 52)]
  constructor
  · intro h
    have h2 : ((|rhs.num| * ((2 ^ 52 : Nat) : Int) : Int) : ℚ) <
        ((1 * (rhs.den : Int) : Int) : ℚ) := by exact_mod_cast h
    push_cast at h2
    linarith
  · intro h
    have h2 : (|(rhs.num : ℚ)|) * 2 ^ 52 < 1 * (rhs.den : ℚ) := by linarith
    push_cast at h2
    exact_mod_cast h2

/-- Claim C1: for the committed token sequence 10 + 10 times 5 over 4 + 45,
`evaluate` succeeds, the pending input becomes the formatted text "67.5", the
evaluated flag is set and the token list is cleared; the numeric result is
exactly 135/2; and the high-precedence pass leaves sequences containing only
`Add`/`Subtract` untouched, so those operators are folded strictly left to
right by the final fold. -/
theorem spec_C1 :
    evaluate { input := "", tokens := exampleTokens, just_evaluated := false,
               error_message := none } =
      { input := "67.5", tokens := [], just_evaluated := true, error_message := none } ∧
    Except.map Qval (evaluate_tokens exampleTokens) = Except.ok (135 / 2 : ℚ) ∧
    (∀ (values : List Q) (ops : List Operator),
      (∀ op ∈ ops, op = Operator.add ∨ op = Operator.subtract) →
      pass1 values ops = Except.ok (values, ops)) := by
  refine ⟨by decide, ?_, ?_⟩
  · have h : evaluate_tokens exampleTokens = Except.ok ⟨270, 4⟩ := by decide
    rw [h]
    show Except.ok (Qval ⟨270, 4⟩) = Except.ok (135 / 2 : ℚ)
    have h2 : Qval ⟨270, 4⟩ = 135 / 2 := by
      rw [Qval]
      norm_num
    rw [h2]
  · intro values ops hops
    exact pass1Aux_low _ _ _ _ hops

/-- Witness for claim C1 at a concrete add-only operator list. -/
theorem spec_C1_witness :
    pass1 [⟨1, 1⟩, ⟨2, 1⟩] [Operator.add] = Except.ok ([⟨1, 1⟩, ⟨2, 1⟩], [Operator.add]) :=
  spec_C1.2.2 _ _ (by decide)

/-- Claim C2: in every reachable state the token sequence never starts with an
operator and never holds two consecutive operators; and dispatching an
operator command on a state whose last token is an operator (with nothing
pending) replaces that operator in place. -/
theorem spec_C2 :
    (∀ a : App, Reachable a → headIsOp a.tokens = false ∧ consecOps a.tokens = false) ∧
    (∀ (a : App) (o o' : Operator) (ts : List Token), a.error_message = none →
      a.input = "" → a.tokens = ts ++ [Token.operator o] →
      (step a (Cmd.op o')).tokens = ts ++ [Token.operator o']) := by
  constructor
  · intro a hr
    obtain ⟨halt, _, _, _⟩ := reachable_inv a hr
    exact ⟨headIsOp_of_alt _ _ halt, consecOps_of_alt _ _ _ halt⟩
  · intro a o o' ts herr hi hts
    have hred : step a (Cmd.op o') = set_operator a o' := by
      rw [step_reduce, if_neg (by simp [herr])]
    have hcommit : try_commit_input a = (a, true) := by
      rw [try_commit_input, if_pos hi]
    rw [hred, set_operator_replace a a o' ts o hcommit hts]

/-- Witness for claim C2. -/
theorem spec_C2_witness :
    headIsOp initApp.tokens = false ∧ consecOps initApp.tokens = false :=
  spec_C2.1 initApp Reachable.init

/-- Claim C3: reduction-time division errors with "Cannot divide by zero"
exactly when the absolute value of the divisor is below the machine epsilon
2 to the power -52 — not only at exact zero, as a nonzero witness divisor
shows — and keying 8, divide, 0, evaluate leaves the engine in the error
state with the message containing "Cannot divide" and both the pending input
and the token list cleared. -/
theorem spec_C3 :
    (∀ lhs rhs : Q, 0 < rhs.den →
      (apply_operator lhs rhs Operator.divide = Except.error "Cannot divide by zero" ↔
        |Qval rhs| < 1 / 2 ^ 52)) ∧
    (∃ rhs : Q, 0 < rhs.den ∧ Qval rhs ≠ 0 ∧
      apply_operator ⟨8, 1⟩ rhs Operator.divide = Except.error "Cannot divide by zero") ∧
    (step (step (step (step initApp (Cmd.digit 8)) (Cmd.op Operator.divide)) (Cmd.digit 0))
        Cmd.eval =
      { input := "", tokens := [], just_evaluated := false,
        error_message := some ("Error " ++ "Cannot divide by zero") }) ∧
    (∃ pre post : String,
      "Error " ++ "Cannot divide by zero" = pre ++ "Cannot divide" ++ post) := by
  refine ⟨?_, ⟨⟨1, 2 ^ 53⟩, by decide, ?_, by decide⟩, by decide, "Error ", " by zero",
    by decide⟩
  · intro lhs rhs hden
    have key := Qblt_abs_eps rhs hden
    rw [apply_operator]
    by_cases hb : Qblt (Qabs rhs) epsilon = true
    · rw [if_pos hb]
      exact iff_of_true rfl (key.mp hb)
    · rw [if_neg hb]
      exact iff_of_false (by simp) (fun hlt => hb (key.mpr hlt))
  · rw [Qval]
    push_cast
    norm_num

/-- Witness for claim C3 at a concrete divisor. -/
theorem spec_C3_witness :
    apply_operator ⟨8, 1⟩ ⟨0, 1⟩ Operator.divide = Except.error "Cannot divide by zero" ↔
      |Qval ⟨0, 1⟩| < 1 / 2 ^ 52 :=
  spec_C3.1 ⟨8, 1⟩ ⟨0, 1⟩ (by decide)

/-- Claim C4: while an error is set, every command except clear-all leaves the
whole engine state unchanged, and clear-all resets to the initial state, hence
does change the state. -/
theorem spec_C4 : ∀ a : App, a.error_message.isSome = true →
    (∀ d : Fin 10, step a (Cmd.digit d) = a) ∧ step a Cmd.dot = a ∧
      step a Cmd.backspace = a ∧ (∀ o : Operator, step a (Cmd.op o) = a) ∧
      step a Cmd.eval = a ∧ step a Cmd.clear = initApp ∧ step a Cmd.clear ≠ a := by
  intro a herr
  refine ⟨?_, ?_, ?_, ?_, ?_, ?_, ?_⟩
  · intro d
    rw [step_reduce, if_pos herr]
  · rw [step_reduce, if_pos herr]
  · rw [step_reduce, if_pos herr]
  · intro o
    rw [step_reduce, if_pos herr]
  · rw [step_reduce, if_pos herr]
  · rw [step_reduce, if_pos herr]
    rfl
  · intro heq
    have h1 : (step a Cmd.clear).error_message = none := by
      rw [step_reduce, if_pos herr]
      rfl
    rw [heq] at h1
    rw [h1] at herr
    exact Bool.noConfusion herr

/-- Witness for claim C4 at a concrete error state. -/
theorem spec_C4_witness :
    (∀ d : Fin 10, step ⟨"", [], false, some "Error x"⟩ (Cmd.digit d) =
        (⟨"", [], false, some "Error x"⟩ : App)) ∧
      step ⟨"", [], false, some "Error x"⟩ Cmd.dot = (⟨"", [], false, some "Error x"⟩ : App) ∧
      step ⟨"", [], false, some "Error x"⟩ Cmd.backspace =
        (⟨"", [], false, some "Error x"⟩ : App) ∧
      (∀ o : Operator, step ⟨"", [], false, some "Error x"⟩ (Cmd.op o) =
        (⟨"", [], false, some "Error x"⟩ : App)) ∧
      step ⟨"", [], false, some "Error x"⟩ Cmd.eval = (⟨"", [], false, some "Error x"⟩ : App) ∧
      step ⟨"", [], false, some "Error x"⟩ Cmd.clear = initApp ∧
      step ⟨"", [], false, some "Error x"⟩ Cmd.clear ≠ (⟨"", [], false, some "Error x"⟩ : App) :=
  spec_C4 ⟨"", [], false, some "Error x"⟩ (by decide)

/-- Claim C5: in every reachable state an active error implies that the
pending input and the token list are both empty, and the error transition
atomically sets the "Error "-prefixed message while clearing both. -/
theorem spec_C5 :
    (∀ a : App, Reachable a → a.error_message.isSome = true →
      a.input = "" ∧ a.tokens = []) ∧
    (∀ (a : App) (msg : String),
      set_error a msg = { input := "", tokens := [], just_evaluated := false,
                          error_message := some ("Error " ++ msg) }) := by
  constructor
  · intro a hr hsome
    obtain ⟨_, _, _, herrc⟩ := reachable_inv a hr
    exact herrc hsome
  · intro a msg
    rfl

/-- Witness for claim C5 at the reachable divide-by-zero error state. -/
theorem spec_C5_witness :
    (step (step (step (step initApp (Cmd.digit 8)) (Cmd.op Operator.divide)) (Cmd.digit 0))
        Cmd.eval).input = "" ∧
      (step (step (step (step initApp (Cmd.digit 8)) (Cmd.op Operator.divide)) (Cmd.digit 0))
        Cmd.eval).tokens = [] :=
  spec_C5.1 _
    (Reachable.next Cmd.eval (Reachable.next (Cmd.digit 0)
      (Reachable.next (Cmd.op Operator.divide) (Reachable.next (Cmd.digit 8) Reachable.init))))
    (by decide)

/-- Claim C6: from every state, including error states, clear-all produces
exactly the initial state, and clearing twice equals clearing once. -/
theorem spec_C6 : ∀ a : App, step a Cmd.clear = initApp ∧
    step (step a Cmd.clear) Cmd.clear = step a Cmd.clear := by
  intro a
  have h1 : step a Cmd.clear = initApp := by
    rw [step_reduce]
    by_cases herr : a.error_message.isSome = true
    · rw [if_pos herr]
      rfl
    · rw [if_neg herr]
      rfl
  refine ⟨h1, ?_⟩
  rw [h1]
  decide

/-- Claim C7: `format_number` is the default decimal rendering followed by
stripping; whenever the rendered text contains a decimal point the returned
string neither ends in a zero digit nor in the point (for every value
representable within the rendering precision, which covers every 64-bit
float); concretely 6.20 formats as "6.2" and 6.00 as "6", and an empty
rendering falls back to "0". -/
theorem spec_C7 :
    (∀ q : Q, format_number q = formatRendered (ratRender q)) ∧
    (∀ q : Q, 0 < q.den → q.den ∣ 10 ^ renderFuel → containsDot (ratRender q) = true →
      (format_number q).data.getLast? ≠ some '0' ∧
        (format_number q).data.getLast? ≠ some '.') ∧
    format_number ⟨62, 10⟩ = "6.2" ∧ format_number ⟨6, 1⟩ = "6" ∧
    formatRendered "" = "0" := by
  exact ⟨fun q => rfl, format_last_chars, by decide, by decide, by decide⟩

/-- Witness for claim C7 at the value 6.2. -/
theorem spec_C7_witness :
    (format_number ⟨62, 10⟩).data.getLast? ≠ some '0' ∧
      (format_number ⟨62, 10⟩).data.getLast? ≠ some '.' :=
  spec_C7.2.1 ⟨62, 10⟩ (by decide) (dvd_pow_self 10 (by decide : renderFuel ≠ 0)) (by decide)

/-- Claim C8: on every valid alternating token sequence (number, operator,
..., number) the index-shifting high-precedence loop of the source is
observably equivalent to the single left-to-right scan that builds a new
reduced sequence: the two evaluation pipelines agree on the result and on the
first error. -/
theorem spec_C8 : ∀ tokens : List Token, altEnd true tokens = some false →
    evaluate_tokens tokens = evaluateTokensScan tokens :=
  fun ts h => evaluate_tokens_eq_scan ts h

/-- Witness for claim C8 at a concrete multiply expression. -/
theorem spec_C8_witness :
    evaluate_tokens [Token.number "6", Token.operator Operator.multiply, Token.number "7"] =
      evaluateTokensScan
        [Token.number "6", Token.operator Operator.multiply, Token.number "7"] :=
  spec_C8 _ (by decide)

/-- Claim C9: whenever `evaluate` reaches the reducer from a reachable state —
the committed token list is nonempty and does not end in an operator — the
parse-failure and structural error branches are unreachable: the only possible
reduction error is the divide-by-zero one; and on arbitrary token lists every
reduction outcome is one of the distinct reportable error strings, never a
crash. -/
theorem spec_C9 :
    (∀ (a : App) (e : String), Reachable a →
      (try_commit_input a).1.tokens ≠ [] →
      endsWithOp (try_commit_input a).1.tokens = false →
      evaluate_tokens (try_commit_input a).1.tokens = Except.error e →
      e = "Cannot divide by zero") ∧
    (∀ (ts : List Token) (e : String), evaluate_tokens ts = Except.error e →
      e = "invalid expression" ∨ e = "incomplete expression" ∨
        e = "invalid number in expression" ∨ e = "Cannot divide by zero") := by
  constructor
  · intro a e hr hne hend heval
    have hinv := reachable_inv a hr
    obtain ⟨halt, hpar, _, _⟩ := hinv
    rcases try_commit_spec a (inv_input_parses a (reachable_inv a hr)) with
      ⟨hi, hcommit⟩ | ⟨hi, hp, hcommit⟩
    · rw [hcommit] at hne hend heval
      obtain ⟨ts', o0, hts⟩ := altEnd_true_ends_op a.tokens halt hne
      have hopend : endsWithOp a.tokens = true := by
        rw [endsWithOp, hts, List.getLast?_concat]
      rw [hopend] at hend
      exact Bool.noConfusion hend
    · rw [hcommit] at hne hend heval
      replace heval : evaluate_tokens (a.tokens ++ [Token.number a.input]) =
        Except.error e := heval
      have halt2 : altEnd true (a.tokens ++ [Token.number a.input]) = some false :=
        altEnd_append_number _ _ halt
      have hpar2 : ∀ s, Token.number s ∈ a.tokens ++ [Token.number a.input] →
          parseNum s ≠ none := by
        intro s hs
        rcases List.mem_append.mp hs with h1 | h1
        · exact hpar s h1
        · simp only [List.mem_singleton] at h1
          injection h1 with h3
          rw [h3]
          exact hp
      obtain ⟨vs, ops, hcol⟩ := collect_ok_of_alt _ true false halt2 hpar2
      obtain ⟨e2, halt3, hlen⟩ := collect_ok_alt _ true vs ops hcol
      have he2 : e2 = false := by
        rw [halt2] at halt3
        injection halt3 with h3
        exact h3.symm
      subst he2
      have hvs : vs ≠ [] := by
        intro h
        subst h
        simp at hlen
      rw [evaluate_tokens, hcol] at heval
      replace heval : (if vs = [] then Except.error "incomplete expression"
          else match pass1 vs ops with
            | Except.error e => Except.error e
            | Except.ok (values, operators) => pass2 values operators) =
          Except.error e := heval
      rw [if_neg hvs] at heval
      cases hp1 : pass1 vs ops with
      | error e3 =>
        rw [hp1] at heval
        injection heval with h4
        rw [← h4]
        exact pass1Aux_error _ _ _ _ _ hp1
      | ok p2 =>
        obtain ⟨vs2, ops2⟩ := p2
        rw [hp1] at heval
        exact pass2_error _ _ _ heval
  · exact fun ts e h => evaluate_tokens_error_cases ts e h

/-- Witness for claim C9 at the reachable state keyed 8, divide, 0. -/
theorem spec_C9_witness : "Cannot divide by zero" = "Cannot divide by zero" :=
  spec_C9.1 (step (step (step initApp (Cmd.digit 8)) (Cmd.op Operator.divide)) (Cmd.digit 0))
    "Cannot divide by zero"
    (Reachable.next (Cmd.digit 0)
      (Reachable.next (Cmd.op Operator.divide) (Reachable.next (Cmd.digit 8) Reachable.init)))
    (by decide) (by decide) (by decide)

/-- Claim C10: in every reachable state a non-empty pending input parses as a
decimal number, so the invalid-number commit failure is unreachable through
the command interface: `try_commit_input` always reports success. -/
theorem spec_C10 : ∀ a : App, Reachable a →
    (a.input ≠ "" → parseNum a.input ≠ none) ∧ (try_commit_input a).2 = true := by
  intro a hr
  have hinv := reachable_inv a hr
  constructor
  · intro hne
    rcases inv_input_parses a hinv with h | h
    · exact absurd h hne
    · exact h
  · rcases try_commit_spec a (inv_input_parses a hinv) with ⟨_, hc⟩ | ⟨_, _, hc⟩ <;> rw [hc]

/-- Witness for claim C10 at the reachable state with pending digit 5. -/
theorem spec_C10_witness :
    ((step initApp (Cmd.digit 5)).input ≠ "" →
      parseNum (step initApp (Cmd.digit 5)).input ≠ none) ∧
    (try_commit_input (step initApp (Cmd.digit 5))).2 = true :=
  spec_C10 (step initApp (Cmd.digit 5)) (Reachable.next (Cmd.digit 5) Reachable.init)

end CalcSpec
